import Mathlib

/-!
Verification of the GDumb balanced-reservoir memory plugin
(`avalanche/training/plugins/gdumb_plugin.py`).

The component keeps a fixed-capacity exemplar memory (`ext_mem`) together
with a per-class occurrence counter (`counter`, a Python `defaultdict(int)`),
and at each training step (`adapt_train_dataset`) decides, sample by sample,
whether to stage the sample for addition (memory not yet full) or to evict
one sample of the currently most-represented class (memory full).

The embedding below translates that code shallowly:
* a sample is a pair `(pattern, label)`; patterns are an arbitrary type `α`,
  labels are integers (`target.item()`);
* the insertion-ordered dict `self.counter` is an association list
  `List (Int × Int)`;
* `self.ext_mem` (a `TensorDataset` or `None`) is `Option (List (α × Int))`;
* a Python exception (`max` over an empty dict, attribute access on `None`)
  is `Option.none`.
-/

namespace GDumbPlugin

/-- Component state: `self.mem_size`, `self.ext_mem`, `self.counter`. -/
structure GState (α : Type) where
  mem_size : Nat
  ext_mem : Option (List (α × Int))
  counter : List (Int × Int)
deriving DecidableEq, Repr

/-- `__init__(self, mem_size)`: stores the size, memory `None`, empty counter. -/
def init (α : Type) (mem_size : Nat) : GState α :=
  GState.mk mem_size none []

/-- Construction with the source's default argument `mem_size=200`. -/
def initDefault (α : Type) : GState α :=
  init α 200

/-- `target_value in self.counter` — key membership in the dict. -/
def hasKey (c : List (Int × Int)) (k : Int) : Bool :=
  c.any (fun kv => kv.1 == k)

/-- `self.counter[k]` as a read: value of the first entry with key `k`,
defaulting to `0` (the `defaultdict(int)` default). -/
def counterGet (c : List (Int × Int)) (k : Int) : Int :=
  match c with
  | [] => 0
  | kv :: rest => if kv.1 == k then kv.2 else counterGet rest k

/-- `self.counter[k] += d` (and `-= 1` for `d = -1`) on a `defaultdict(int)`:
update the entry in place when the key exists, else append `(k, d)`
(a fresh key enters at the end of the dict's insertion order). -/
def counterAdd (c : List (Int × Int)) (k : Int) (d : Int) : List (Int × Int) :=
  match c with
  | [] => [(k, d)]
  | kv :: rest =>
    if kv.1 == k then (kv.1, kv.2 + d) :: rest
    else kv :: counterAdd rest k d

/-- `sum(self.counter.values())`. -/
def sumCounter (c : List (Int × Int)) : Int :=
  (c.map Prod.snd).sum

/-- Helper for `max(self.counter, key=self.counter.get)`: Python's `max`
keeps the current best on ties, so the first entry with the maximal value
wins. -/
def pickMax (best : Int × Int) : List (Int × Int) → Int × Int
  | [] => best
  | kv :: rest => if best.2 < kv.2 then pickMax kv rest else pickMax best rest

/-- `max(self.counter, key=self.counter.get)`: `none` models the
`ValueError` Python raises on an empty dict. -/
def most_represented (c : List (Int × Int)) : Option Int :=
  match c with
  | [] => none
  | kv :: rest => some (pickMax kv rest).1

/-- The eviction scan: replace the first memory entry whose label equals
`lbl` with the incoming `(p, t)` and stop (`break`); if no entry matches,
the memory is left unchanged (the loop falls through). -/
def replaceFirst (mem : List (α × Int)) (lbl : Int) (p : α) (t : Int) :
    List (α × Int) :=
  match mem with
  | [] => []
  | e :: rest =>
    if e.2 == lbl then (p, t) :: rest
    else e :: replaceFirst rest lbl p t

/-- The per-sample quota: `1` when `self.counter == {}`, else
`int(self.mem_size / len(self.counter.keys()))` (floor division for the
non-negative operands the component works with). -/
def patterns_per_class (s : GState α) : Int :=
  if s.counter.isEmpty then 1
  else ((s.mem_size / s.counter.length : Nat) : Int)

/-- `target_value not in self.counter or self.counter[target_value] < patterns_per_class`. -/
def eligibleB (s : GState α) (tv : Int) : Bool :=
  if hasKey s.counter tv then
    decide (counterGet s.counter tv < patterns_per_class s)
  else true

/-- Number of samples currently held in memory (`0` when `self.ext_mem is None`). -/
def memLen (s : GState α) : Nat :=
  (s.ext_mem.getD []).length

/-- Number of memory entries carrying a given label. -/
def countLabel (s : GState α) (lbl : Int) : Nat :=
  ((s.ext_mem.getD []).filter (fun e => e.2 == lbl)).length

/-- One iteration of the `for i, (pattern, target) in enumerate(train_dataset)`
loop, acting on the component state and the staging list `ext_mem = [[], []]`.
`none` models an uncaught exception:
* `most_represented` on an empty counter (`ValueError` from `max`), and
* the eviction scan when `self.ext_mem is None` (`AttributeError` on
  `self.ext_mem.tensors`). -/
def processSample (s : GState α) (staged : List (α × Int)) (x : α × Int) :
    Option (GState α × List (α × Int)) :=
  if eligibleB s x.2 then
    if sumCounter s.counter ≥ (s.mem_size : Int) then
      match most_represented s.counter with
      | none => none
      | some to_remove =>
        match s.ext_mem with
        | none => none
        | some mem =>
          some (GState.mk s.mem_size
                  (some (replaceFirst mem to_remove x.1 x.2))
                  (counterAdd (counterAdd s.counter to_remove (-1)) x.2 1),
                staged)
    else
      some (GState.mk s.mem_size s.ext_mem (counterAdd s.counter x.2 1),
            staged ++ [x])
  else
    some (s, staged)

/-- The whole loop, threading state and staging list through the samples in
input order. -/
def processAll (s : GState α) (staged : List (α × Int)) :
    List (α × Int) → Option (GState α × List (α × Int))
  | [] => some (s, staged)
  | x :: xs =>
    match processSample s staged x with
    | none => none
    | some (s2, st2) => processAll s2 st2 xs

/-- `adapt_train_dataset`: run the loop, then merge the staged additions in
front of the previous memory (`torch.cat([memx, self.ext_mem.tensors[0]])`;
when `self.ext_mem is None` the staged samples become the whole memory).
When nothing was staged the memory object is left as is. -/
def adapt_train_dataset (s : GState α) (train_dataset : List (α × Int)) :
    Option (GState α) :=
  match processAll s [] train_dataset with
  | none => none
  | some (s2, staged) =>
    if staged.length > 0 then
      some (GState.mk s2.mem_size (some (staged ++ s2.ext_mem.getD []))
              s2.counter)
    else
      some s2

/-- States reachable from a fresh component by completed
`adapt_train_dataset` calls. -/
inductive Reachable {α : Type} : GState α → Prop
  | base (n : Nat) : Reachable (init α n)
  | step (s : GState α) (ds : List (α × Int)) (s2 : GState α) :
      Reachable s → adapt_train_dataset s ds = some s2 → Reachable s2

/-- Invariant threaded through the per-sample loop: the counter sums to the
number of samples accounted for (resident plus staged), that total respects
the capacity, counts are non-negative, counter keys are distinct, and a
memory object, once allocated, is non-empty. -/
def LoopInv (s : GState α) (staged : List (α × Int)) : Prop :=
  sumCounter s.counter = ((memLen s + staged.length : Nat) : Int) ∧
  memLen s + staged.length ≤ s.mem_size ∧
  (∀ kv ∈ s.counter, 0 ≤ kv.2) ∧
  (s.counter.map Prod.fst).Nodup ∧
  ∀ m, s.ext_mem = some m → 0 < m.length

/-- Well-formedness of a component state between steps. -/
def WF (s : GState α) : Prop := LoopInv s []

/-- The largest count held by any class in the counter (`0` when empty). -/
def maxVal (c : List (Int × Int)) : Int :=
  (c.map Prod.snd).foldr max 0

/-- Modelled from the spec: §7 requires zero-capacity construction to be
"reported immediately to the caller as a construction/input error". The
source's `__init__` contains no such check; this checked constructor follows
the spec's words so the two can be compared. -/
def initChecked (α : Type) (mem_size : Nat) : Option (GState α) :=
  if 0 < mem_size then some (init α mem_size) else none

/-! Concrete states used by the scenario claims. -/

/-- Capacity-4 memory filled by one step of four label-0 samples. -/
def fullState : GState Nat :=
  GState.mk 4 (some [(10, 0), (11, 0), (12, 0), (13, 0)]) [(0, 4)]

/-- `fullState` after one further step carrying a single label-1 sample. -/
def afterState : GState Nat :=
  GState.mk 4 (some [(20, 1), (11, 0), (12, 0), (13, 0)]) [(0, 3), (1, 1)]

/-- Capacity-10 memory filled by one step of ten label-0 samples. -/
def c5MidState : GState Nat :=
  GState.mk 10
    (some [(0, 0), (1, 0), (2, 0), (3, 0), (4, 0),
           (5, 0), (6, 0), (7, 0), (8, 0), (9, 0)])
    [(0, 10)]

/-- `c5MidState` after one further step carrying a single label-1 sample. -/
def c5EndState : GState Nat :=
  GState.mk 10
    (some [(99, 1), (1, 0), (2, 0), (3, 0), (4, 0),
           (5, 0), (6, 0), (7, 0), (8, 0), (9, 0)])
    [(0, 9), (1, 1)]

/-- The spec's exact-quota-boundary scenario: capacity 10, counts
`{0: 5, 1: 5}`. -/
def boundaryState : GState Nat :=
  GState.mk 10
    (some [(0, 0), (1, 0), (2, 0), (3, 0), (4, 0),
           (5, 1), (6, 1), (7, 1), (8, 1), (9, 1)])
    [(0, 5), (1, 5)]

/-- A reachable capacity-2 state in which an eviction has driven label 0's
count to zero while the key survives in the counter. -/
def zeroCountState : GState Nat :=
  GState.mk 2 (some [(51, 1), (52, 2)]) [(0, 0), (1, 1), (2, 1)]

/-- The state produced by the failed-eviction trace of capacity 4: the
counter claims one label-1 and one label-3 entry, while memory holds two
label-1 entries and no label-3 entry. -/
def desyncState : GState Nat :=
  GState.mk 4 (some [(101, 1), (102, 1), (103, 2), (100, 0)])
    [(0, 1), (1, 1), (2, 1), (3, 1)]

/-! ### Basic lemmas about the counter operations -/

theorem sumCounter_cons (kv : Int × Int) (c : List (Int × Int)) :
    sumCounter (kv :: c) = kv.2 + sumCounter c := by
  simp [sumCounter]

theorem sumCounter_counterAdd (c : List (Int × Int)) (k d : Int) :
    sumCounter (counterAdd c k d) = sumCounter c + d := by
  induction c with
  | nil => simp [counterAdd, sumCounter]
  | cons kv rest ih =>
    have hunf : counterAdd (kv :: rest) k d =
        if kv.1 == k then (kv.1, kv.2 + d) :: rest
        else kv :: counterAdd rest k d := rfl
    by_cases h : kv.1 = k
    · have hb : (kv.1 == k) = true := by
        simpa [beq_iff_eq] using h
      rw [hunf, if_pos hb, sumCounter_cons, sumCounter_cons]
      ring
    · have hb : ¬ (kv.1 == k) = true := by
        simpa [beq_iff_eq] using h
      rw [hunf, if_neg hb, sumCounter_cons, sumCounter_cons, ih]
      ring

theorem hasKey_iff_mem (c : List (Int × Int)) (k : Int) :
    hasKey c k = true ↔ k ∈ c.map Prod.fst := by
  simp [hasKey, List.any_eq_true, beq_iff_eq]

theorem hasKey_of_mem {c : List (Int × Int)} {k v : Int} (h : (k, v) ∈ c) :
    hasKey c k = true := by
  rw [hasKey_iff_mem]
  exact List.mem_map_of_mem Prod.fst h

theorem counterAdd_keys_pos {c : List (Int × Int)} {k : Int} (d : Int)
    (h : hasKey c k = true) :
    (counterAdd c k d).map Prod.fst = c.map Prod.fst := by
  induction c with
  | nil => simp [hasKey] at h
  | cons kv rest ih =>
    by_cases hk : kv.1 = k
    · simp [counterAdd, hk]
    · have h2 : hasKey rest k = true := by
        simpa [hasKey, beq_iff_eq, hk] using h
      simp [counterAdd, beq_iff_eq, hk, ih h2]

theorem hasKey_cons (kv : Int × Int) (rest : List (Int × Int)) (k : Int) :
    hasKey (kv :: rest) k = (kv.1 == k || hasKey rest k) := by
  simp [hasKey]

theorem counterAdd_keys_neg {c : List (Int × Int)} {k : Int} (d : Int)
    (h : hasKey c k = false) :
    (counterAdd c k d).map Prod.fst = c.map Prod.fst ++ [k] := by
  induction c with
  | nil => simp [counterAdd]
  | cons kv rest ih =>
    rw [hasKey_cons, Bool.or_eq_false_iff] at h
    have hk : ¬ kv.1 = k := by
      simpa [beq_iff_eq] using h.1
    simp [counterAdd, beq_iff_eq, hk, ih h.2]

theorem counterGet_counterAdd_self (c : List (Int × Int)) (k d : Int) :
    counterGet (counterAdd c k d) k = counterGet c k + d := by
  induction c with
  | nil => simp [counterAdd, counterGet]
  | cons kv rest ih =>
    by_cases hk : kv.1 = k
    · simp [counterAdd, counterGet, hk]
    · simp [counterAdd, counterGet, beq_iff_eq, hk, ih]

theorem counterGet_counterAdd_ne (c : List (Int × Int)) {k k' : Int} (d : Int)
    (h : k' ≠ k) :
    counterGet (counterAdd c k d) k' = counterGet c k' := by
  induction c with
  | nil => simp [counterAdd, counterGet, beq_iff_eq, Ne.symm h]
  | cons kv rest ih =>
    by_cases hk : kv.1 = k
    · subst hk
      simp [counterAdd, counterGet, beq_iff_eq, Ne.symm h]
    · by_cases hk' : kv.1 = k'
      · simp [counterAdd, counterGet, beq_iff_eq, hk, hk', h]
      · simp [counterAdd, counterGet, beq_iff_eq, hk, hk', ih]

theorem hasKey_false_not_mem {c : List (Int × Int)} {k : Int}
    (h : hasKey c k = false) : k ∉ c.map Prod.fst := by
  intro hm
  rw [← hasKey_iff_mem] at hm
  rw [h] at hm
  exact Bool.false_ne_true hm

theorem hasKey_counterAdd_self (c : List (Int × Int)) (k d : Int) :
    hasKey (counterAdd c k d) k = true := by
  by_cases h : hasKey c k = true
  · rw [hasKey_iff_mem, counterAdd_keys_pos d h, ← hasKey_iff_mem]
    exact h
  · have h' : hasKey c k = false := by
      simpa using h
    rw [hasKey_iff_mem, counterAdd_keys_neg d h']
    simp

theorem forall_mem_counterAdd {P : Int × Int → Prop} {c : List (Int × Int)}
    {k d : Int} (hall : ∀ kv ∈ c, P kv) (hnew : P (k, counterGet c k + d)) :
    ∀ kv ∈ counterAdd c k d, P kv := by
  induction c with
  | nil =>
    intro kv hm
    simp [counterAdd] at hm
    rw [hm]
    simpa [counterGet] using hnew
  | cons hd rest ih =>
    intro kv hm
    have hunf : counterAdd (hd :: rest) k d =
        if hd.1 == k then (hd.1, hd.2 + d) :: rest
        else hd :: counterAdd rest k d := rfl
    by_cases hk : hd.1 = k
    · have hb : (hd.1 == k) = true := by
        simpa [beq_iff_eq] using hk
      rw [hunf, if_pos hb] at hm
      rcases List.mem_cons.mp hm with h | h
      · have hget : counterGet (hd :: rest) k = hd.2 := by
          simp [counterGet, hk]
        rw [hget] at hnew
        rw [h, hk]
        exact hnew
      · exact hall kv (List.mem_cons_of_mem hd h)
    · have hb : ¬ (hd.1 == k) = true := by
        simpa [beq_iff_eq] using hk
      rw [hunf, if_neg hb] at hm
      rcases List.mem_cons.mp hm with h | h
      · rw [h]
        exact hall hd (List.mem_cons_self hd rest)
      · have hget : counterGet (hd :: rest) k = counterGet rest k := by
          simp [counterGet, beq_iff_eq, hk]
        rw [hget] at hnew
        exact ih (fun kv2 hm2 => hall kv2 (List.mem_cons_of_mem hd hm2)) hnew kv h

theorem counterGet_nonneg {c : List (Int × Int)}
    (h : ∀ kv ∈ c, 0 ≤ kv.2) (k : Int) : 0 ≤ counterGet c k := by
  induction c with
  | nil => simp [counterGet]
  | cons kv rest ih =>
    by_cases hk : kv.1 = k
    · simpa [counterGet, hk] using h kv (List.mem_cons_self kv rest)
    · simpa [counterGet, beq_iff_eq, hk] using
        ih (fun kv2 hm => h kv2 (List.mem_cons_of_mem kv hm))

theorem mem_of_hasKey {c : List (Int × Int)} {k : Int}
    (h : hasKey c k = true) : (k, counterGet c k) ∈ c := by
  induction c with
  | nil => simp [hasKey] at h
  | cons kv rest ih =>
    by_cases hk : kv.1 = k
    · have hget : counterGet (kv :: rest) k = kv.2 := by
        simp [counterGet, hk]
      rw [hget, ← hk, Prod.mk.eta]
      exact List.mem_cons_self kv rest
    · have h2 : hasKey rest k = true := by
        simpa [hasKey, beq_iff_eq, hk] using h
      have hget : counterGet (kv :: rest) k = counterGet rest k := by
        simp [counterGet, beq_iff_eq, hk]
      rw [hget]
      exact List.mem_cons_of_mem kv (ih h2)

theorem counterGet_eq_of_mem_nodup {c : List (Int × Int)} {k v : Int}
    (hnd : (c.map Prod.fst).Nodup) (hm : (k, v) ∈ c) : counterGet c k = v := by
  induction c with
  | nil => simp at hm
  | cons kv rest ih =>
    have hnd' : kv.1 ∉ rest.map Prod.fst ∧ (rest.map Prod.fst).Nodup := by
      rw [List.map_cons, List.nodup_cons] at hnd
      exact hnd
    rcases List.mem_cons.mp hm with h | h
    · rw [← h]
      simp [counterGet]
    · by_cases hk : kv.1 = k
      · exfalso
        apply hnd'.1
        rw [hk]
        exact List.mem_map_of_mem Prod.fst h
      · simp only [counterGet, beq_iff_eq, hk, if_false]
        exact ih hnd'.2 h

theorem sumCounter_le_length_mul {c : List (Int × Int)} {B : Int}
    (h : ∀ kv ∈ c, kv.2 ≤ B) : sumCounter c ≤ (c.length : Int) * B := by
  induction c with
  | nil => simp [sumCounter]
  | cons kv rest ih =>
    have h1 : kv.2 ≤ B := h kv (List.mem_cons_self kv rest)
    have h2 : sumCounter rest ≤ (rest.length : Int) * B :=
      ih (fun kv2 hm => h kv2 (List.mem_cons_of_mem kv hm))
    rw [sumCounter_cons]
    push_cast [List.length_cons]
    nlinarith [h1, h2]

theorem replaceFirst_length (mem : List (α × Int)) (lbl : Int) (p : α) (t : Int) :
    (replaceFirst mem lbl p t).length = mem.length := by
  induction mem with
  | nil => simp [replaceFirst]
  | cons e rest ih =>
    by_cases he : e.2 = lbl
    · simp [replaceFirst, he]
    · simp [replaceFirst, beq_iff_eq, he, ih]

/-! ### Lemmas about eviction-victim selection -/

theorem pickMax_spec (l : List (Int × Int)) (best : Int × Int) :
    pickMax best l ∈ best :: l ∧ best.2 ≤ (pickMax best l).2 ∧
      ∀ kv ∈ l, kv.2 ≤ (pickMax best l).2 := by
  induction l generalizing best with
  | nil => simp [pickMax]
  | cons kv rest ih =>
    have hunf : pickMax best (kv :: rest) =
        if best.2 < kv.2 then pickMax kv rest else pickMax best rest := rfl
    by_cases h : best.2 < kv.2
    · rcases ih kv with ⟨hm, hle, hall⟩
      rw [hunf, if_pos h]
      refine ⟨List.mem_cons_of_mem best hm,
        le_of_lt (lt_of_lt_of_le h hle), ?_⟩
      intro kv2 hm2
      rcases List.mem_cons.mp hm2 with h2 | h2
      · rw [h2]
        exact hle
      · exact hall kv2 h2
    · rcases ih best with ⟨hm, hle, hall⟩
      rw [hunf, if_neg h]
      have hmem : pickMax best rest ∈ best :: kv :: rest := by
        rcases List.mem_cons.mp hm with h2 | h2
        · rw [h2]
          exact List.mem_cons_self best (kv :: rest)
        · exact List.mem_cons_of_mem best (List.mem_cons_of_mem kv h2)
      refine ⟨hmem, hle, ?_⟩
      intro kv2 hm2
      rcases List.mem_cons.mp hm2 with h2 | h2
      · rw [h2]
        exact le_trans (le_of_not_lt h) hle
      · exact hall kv2 h2

theorem most_represented_spec {c : List (Int × Int)} {r : Int}
    (h : most_represented c = some r) :
    ∃ v, (r, v) ∈ c ∧ ∀ kv ∈ c, kv.2 ≤ v := by
  match c, h with
  | kv :: rest, h =>
    rcases pickMax_spec rest kv with ⟨hm, hle, hall⟩
    have hr : (pickMax kv rest).1 = r := by
      simpa [most_represented] using h
    refine ⟨(pickMax kv rest).2, ?_, ?_⟩
    · rw [← hr]
      exact hm
    · intro kv2 hm2
      rcases List.mem_cons.mp hm2 with h2 | h2
      · exact h2 ▸ hle
      · exact hall kv2 h2

/-! ### The state invariant and its preservation -/

theorem nodup_keys_counterAdd {c : List (Int × Int)} (k d : Int)
    (hnd : (c.map Prod.fst).Nodup) :
    ((counterAdd c k d).map Prod.fst).Nodup := by
  by_cases h : hasKey c k = true
  · rw [counterAdd_keys_pos d h]
    exact hnd
  · have h' : hasKey c k = false := by
      simpa using h
    rw [counterAdd_keys_neg d h']
    rw [List.nodup_append]
    refine ⟨hnd, List.nodup_singleton k, ?_⟩
    intro a ha hb
    rw [List.mem_singleton] at hb
    subst hb
    exact hasKey_false_not_mem h' ha

theorem processSample_inv {s : GState α} {staged : List (α × Int)}
    {x : α × Int} {s2 : GState α} {st2 : List (α × Int)}
    (hinv : LoopInv s staged)
    (h : processSample s staged x = some (s2, st2)) :
    LoopInv s2 st2 ∧ s2.mem_size = s.mem_size := by
  rcases hinv with ⟨hsum, hcap, hnn, hnd, hpos⟩
  unfold processSample at h
  split at h
  · split at h
    · -- memory full: eviction path
      split at h
      · exact Option.noConfusion h
      · rename_i hg to_remove hmr
        split at h
        · exact Option.noConfusion h
        · rename_i mem hmem
          simp only [Option.some.injEq, Prod.mk.injEq] at h
          obtain ⟨hs2, hst2⟩ := h
          subst hs2
          subst hst2
          rcases most_represented_spec hmr with ⟨v, hvmem, hvmax⟩
          have hget : counterGet s.counter to_remove = v :=
            counterGet_eq_of_mem_nodup hnd hvmem
          have hmempos : 0 < mem.length := hpos mem hmem
          have hmemlen : memLen s = mem.length := by
            simp [memLen, hmem]
          have hsum1 : (1 : Int) ≤ sumCounter s.counter := by
            rw [hsum]
            have : 1 ≤ memLen s + staged.length := by
              omega
            exact_mod_cast this
          have hvpos : 1 ≤ v := by
            by_contra hle
            push_neg at hle
            have hb := sumCounter_le_length_mul hvmax
            have : (s.counter.length : Int) * v ≤ 0 := by
              have hl : (0 : Int) ≤ (s.counter.length : Int) := by
                exact_mod_cast Nat.zero_le _
              nlinarith
            omega
          have hnn1 : ∀ kv ∈ counterAdd s.counter to_remove (-1), 0 ≤ kv.2 := by
            refine forall_mem_counterAdd hnn ?_
            rw [hget]
            omega
          have hml : (s.ext_mem.getD []).length = mem.length := by
            rw [hmem]
            rfl
          have hcap' : (s.ext_mem.getD []).length + staged.length ≤ s.mem_size :=
            hcap
          have hsum' : sumCounter s.counter =
              (((s.ext_mem.getD []).length + staged.length : Nat) : Int) := hsum
          constructor
          · refine ⟨?_, ?_, ?_, ?_, ?_⟩
            · rw [sumCounter_counterAdd, sumCounter_counterAdd, hsum']
              simp only [memLen, Option.getD_some, replaceFirst_length]
              omega
            · simp only [memLen, Option.getD_some, replaceFirst_length]
              omega
            · refine forall_mem_counterAdd hnn1 ?_
              have := counterGet_nonneg hnn1 x.2
              omega
            · exact nodup_keys_counterAdd _ _ (nodup_keys_counterAdd _ _ hnd)
            · intro m hm
              have hm' : replaceFirst mem to_remove x.1 x.2 = m := by
                simpa using hm
              rw [← hm', replaceFirst_length]
              exact hmempos
          · rfl
    · -- memory not full: staging path
      rename_i hg
      simp only [Option.some.injEq, Prod.mk.injEq] at h
      obtain ⟨hs2, hst2⟩ := h
      subst hs2
      subst hst2
      have hlt : (s.ext_mem.getD []).length + staged.length < s.mem_size := by
        push_neg at hg
        rw [hsum] at hg
        exact_mod_cast hg
      have hsum' : sumCounter s.counter =
          (((s.ext_mem.getD []).length + staged.length : Nat) : Int) := hsum
      constructor
      · refine ⟨?_, ?_, ?_, ?_, ?_⟩
        · rw [sumCounter_counterAdd, hsum']
          simp only [memLen, List.length_append, List.length_cons,
            List.length_nil]
          omega
        · simp only [memLen, List.length_append, List.length_cons,
            List.length_nil]
          omega
        · refine forall_mem_counterAdd hnn ?_
          have := counterGet_nonneg hnn x.2
          omega
        · exact nodup_keys_counterAdd _ _ hnd
        · exact hpos
      · rfl
  · -- not eligible: sample discarded, nothing changes
    simp only [Option.some.injEq, Prod.mk.injEq] at h
    obtain ⟨hs2, hst2⟩ := h
    subst hs2
    subst hst2
    exact ⟨⟨hsum, hcap, hnn, hnd, hpos⟩, rfl⟩

theorem processAll_inv {ds : List (α × Int)} :
    ∀ {s : GState α} {staged st2 : List (α × Int)} {s2 : GState α},
    LoopInv s staged → processAll s staged ds = some (s2, st2) →
    LoopInv s2 st2 ∧ s2.mem_size = s.mem_size := by
  induction ds with
  | nil =>
    intro s staged st2 s2 hinv h
    simp only [processAll, Option.some.injEq, Prod.mk.injEq] at h
    obtain ⟨hs2, hst2⟩ := h
    subst hs2
    subst hst2
    exact ⟨hinv, rfl⟩
  | cons x xs ih =>
    intro s staged st2 s2 hinv h
    have hunf : processAll s staged (x :: xs) =
        match processSample s staged x with
        | none => none
        | some (s1, st1) => processAll s1 st1 xs := rfl
    rw [hunf] at h
    split at h
    · exact Option.noConfusion h
    · rename_i s1 st1 hps
      rcases processSample_inv hinv hps with ⟨hinv1, hms1⟩
      rcases ih hinv1 h with ⟨hinv2, hms2⟩
      exact ⟨hinv2, hms2.trans hms1⟩

theorem adapt_train_dataset_wf {s s2 : GState α} {ds : List (α × Int)}
    (hwf : WF s) (h : adapt_train_dataset s ds = some s2) :
    WF s2 ∧ s2.mem_size = s.mem_size := by
  unfold adapt_train_dataset at h
  split at h
  · exact Option.noConfusion h
  · rename_i s1 staged hpa
    rcases processAll_inv hwf hpa with ⟨hinv1, hms1⟩
    rcases hinv1 with ⟨hsum, hcap, hnn, hnd, hpos⟩
    split at h
    · rename_i hst
      simp only [Option.some.injEq] at h
      subst h
      have hsum' : sumCounter s1.counter =
          (((s1.ext_mem.getD []).length + staged.length : Nat) : Int) := hsum
      have hcap' : (s1.ext_mem.getD []).length + staged.length ≤ s1.mem_size :=
        hcap
      refine ⟨⟨?_, ?_, ?_, ?_, ?_⟩, hms1⟩
      · rw [hsum']
        simp only [memLen, Option.getD_some, List.length_append,
          List.length_nil]
        omega
      · simp only [memLen, Option.getD_some, List.length_append,
          List.length_nil]
        omega
      · exact hnn
      · exact hnd
      · intro m hm
        have hm' : staged ++ s1.ext_mem.getD [] = m := by
          simpa using hm
        rw [← hm']
        simp only [List.length_append]
        omega
    · rename_i hst
      simp only [Option.some.injEq] at h
      subst h
      have hempty : staged = [] := by
        have : staged.length = 0 := by
          omega
        exact List.length_eq_zero.mp this
      subst hempty
      exact ⟨⟨hsum, hcap, hnn, hnd, hpos⟩, hms1⟩

/-! ### The maximum class count and its behaviour at capacity -/

theorem maxVal_cons (kv : Int × Int) (c : List (Int × Int)) :
    maxVal (kv :: c) = max kv.2 (maxVal c) := rfl

theorem maxVal_nonneg (c : List (Int × Int)) : 0 ≤ maxVal c := by
  induction c with
  | nil => simp [maxVal]
  | cons kv rest ih =>
    rw [maxVal_cons]
    exact le_trans ih (le_max_right _ _)

theorem le_maxVal_of_mem {c : List (Int × Int)} {kv : Int × Int}
    (h : kv ∈ c) : kv.2 ≤ maxVal c := by
  induction c with
  | nil => simp at h
  | cons hd rest ih =>
    rw [maxVal_cons]
    rcases List.mem_cons.mp h with h2 | h2
    · rw [h2]
      exact le_max_left _ _
    · exact le_trans (ih h2) (le_max_right _ _)

theorem maxVal_le {c : List (Int × Int)} {B : Int}
    (hB : 0 ≤ B) (h : ∀ kv ∈ c, kv.2 ≤ B) : maxVal c ≤ B := by
  induction c with
  | nil => simpa [maxVal] using hB
  | cons hd rest ih =>
    rw [maxVal_cons]
    exact max_le (h hd (List.mem_cons_self hd rest))
      (ih (fun kv hm => h kv (List.mem_cons_of_mem hd hm)))

theorem counterGet_of_hasKey_false {c : List (Int × Int)} {k : Int}
    (h : hasKey c k = false) : counterGet c k = 0 := by
  induction c with
  | nil => rfl
  | cons kv rest ih =>
    rw [hasKey_cons, Bool.or_eq_false_iff] at h
    have hk : ¬ kv.1 = k := by
      simpa [beq_iff_eq] using h.1
    simp only [counterGet, beq_iff_eq, hk, if_false]
    exact ih h.2

/-- At capacity every admitted sample is placed by eviction from a
most-represented class, so one pass over a sample stages nothing and never
increases the maximum class count. -/
theorem processSample_atCap {s : GState α} {x : α × Int}
    {s2 : GState α} {st2 : List (α × Int)}
    (hinv : LoopInv s []) (hcapfull : memLen s = s.mem_size)
    (h : processSample s [] x = some (s2, st2)) :
    st2 = [] ∧ LoopInv s2 [] ∧ memLen s2 = s2.mem_size ∧
      s2.mem_size = s.mem_size ∧ maxVal s2.counter ≤ maxVal s.counter := by
  have hmain := processSample_inv hinv h
  rcases hinv with ⟨hsum, hcap, hnn, hnd, hpos⟩
  have hsumms : sumCounter s.counter = (s.mem_size : Int) := by
    rw [hsum, ← hcapfull]
    simp
  unfold processSample at h
  split at h
  · rename_i he
    split at h
    · split at h
      · exact Option.noConfusion h
      · rename_i hg to_remove hmr
        split at h
        · exact Option.noConfusion h
        · rename_i mem hmem
          simp only [Option.some.injEq, Prod.mk.injEq] at h
          obtain ⟨hs2, hst2⟩ := h
          subst hs2
          subst hst2
          rcases most_represented_spec hmr with ⟨v, hvmem, hvmax⟩
          have hget : counterGet s.counter to_remove = v :=
            counterGet_eq_of_mem_nodup hnd hvmem
          have hmemlen : memLen s = mem.length := by
            simp [memLen, hmem]
          have hmspos : 0 < s.mem_size := by
            have := hpos mem hmem
            omega
          have hcne : s.counter ≠ [] := by
            intro he0
            rw [he0] at hmr
            exact Option.noConfusion hmr
          have hlen1 : 1 ≤ s.counter.length := List.length_pos.mpr hcne
          have hallM : ∀ kv ∈ s.counter, kv.2 ≤ maxVal s.counter :=
            fun kv hm => le_maxVal_of_mem hm
          have hsmul := sumCounter_le_length_mul hallM
          have hM1 : 1 ≤ maxVal s.counter := by
            by_contra hle
            push_neg at hle
            have hM0 : maxVal s.counter ≤ 0 := by
              omega
            have hl0 : (0 : Int) ≤ (s.counter.length : Int) := by
              exact_mod_cast Nat.zero_le _
            have hms1 : (1 : Int) ≤ (s.mem_size : Int) := by
              exact_mod_cast hmspos
            nlinarith [hsmul, hsumms]
          have hquota : patterns_per_class s ≤ maxVal s.counter := by
            have hne : ¬ s.counter.isEmpty = true := by
              simpa [List.isEmpty_iff] using hcne
            have hppc : patterns_per_class s =
                ((s.mem_size / s.counter.length : Nat) : Int) := by
              unfold patterns_per_class
              rw [if_neg hne]
            have hMeq : maxVal s.counter = ((maxVal s.counter).toNat : Int) :=
              (Int.toNat_of_nonneg (maxVal_nonneg _)).symm
            have hmsle : s.mem_size ≤
                s.counter.length * (maxVal s.counter).toNat := by
              have hi : (s.mem_size : Int) ≤
                  (s.counter.length : Int) * ((maxVal s.counter).toNat : Int) := by
                rw [← hMeq, ← hsumms]
                exact hsmul
              exact_mod_cast hi
            have hdiv : s.mem_size / s.counter.length ≤
                (maxVal s.counter).toNat := by
              calc s.mem_size / s.counter.length
                  ≤ s.counter.length * (maxVal s.counter).toNat /
                      s.counter.length := Nat.div_le_div_right hmsle
                _ = (maxVal s.counter).toNat :=
                    Nat.mul_div_cancel_left _ (by omega)
            rw [hppc, hMeq]
            exact_mod_cast hdiv
          have hvM : v ≤ maxVal s.counter := le_maxVal_of_mem hvmem
          have hallM1 : ∀ kv ∈ counterAdd s.counter to_remove (-1),
              kv.2 ≤ maxVal s.counter := by
            refine forall_mem_counterAdd hallM ?_
            show counterGet s.counter to_remove + (-1) ≤ maxVal s.counter
            rw [hget]
            omega
          have hallM2 : ∀ kv ∈ counterAdd
              (counterAdd s.counter to_remove (-1)) x.2 1,
              kv.2 ≤ maxVal s.counter := by
            refine forall_mem_counterAdd hallM1 ?_
            show counterGet (counterAdd s.counter to_remove (-1)) x.2 + 1 ≤
              maxVal s.counter
            by_cases hxr : x.2 = to_remove
            · rw [hxr, counterGet_counterAdd_self, hget]
              omega
            · rw [counterGet_counterAdd_ne _ _ hxr]
              unfold eligibleB at he
              by_cases hhk : hasKey s.counter x.2 = true
              · rw [if_pos hhk] at he
                have hlt := of_decide_eq_true he
                omega
              · have hhk' : hasKey s.counter x.2 = false := by
                  simpa using hhk
                rw [counterGet_of_hasKey_false hhk']
                omega
          refine ⟨rfl, hmain.1, ?_, hmain.2, ?_⟩
          · simp only [memLen, Option.getD_some, replaceFirst_length]
            omega
          · exact maxVal_le (le_trans zero_le_one hM1) hallM2
    · rename_i hg
      exact absurd hsumms.ge hg
  · simp only [Option.some.injEq, Prod.mk.injEq] at h
    obtain ⟨hs2, hst2⟩ := h
    subst hs2
    subst hst2
    exact ⟨rfl, hmain.1, hcapfull, rfl, le_refl _⟩

theorem processAll_atCap {ds : List (α × Int)} :
    ∀ {s s2 : GState α} {st2 : List (α × Int)},
    LoopInv s [] → memLen s = s.mem_size →
    processAll s [] ds = some (s2, st2) →
    st2 = [] ∧ maxVal s2.counter ≤ maxVal s.counter := by
  induction ds with
  | nil =>
    intro s s2 st2 hinv hcap h
    simp only [processAll, Option.some.injEq, Prod.mk.injEq] at h
    obtain ⟨hs2, hst2⟩ := h
    subst hs2
    subst hst2
    exact ⟨rfl, le_refl _⟩
  | cons x xs ih =>
    intro s s2 st2 hinv hcap h
    have hunf : processAll s [] (x :: xs) =
        match processSample s [] x with
        | none => none
        | some (s1, st1) => processAll s1 st1 xs := rfl
    rw [hunf] at h
    split at h
    · exact Option.noConfusion h
    · rename_i s1 st1 hps
      rcases processSample_atCap hinv hcap hps with
        ⟨hst1, hinv1, hcap1, hms1, hmax1⟩
      subst hst1
      rcases ih hinv1 hcap1 h with ⟨hst2, hmax2⟩
      exact ⟨hst2, le_trans hmax2 hmax1⟩

theorem adapt_train_dataset_atCap {s s2 : GState α} {ds : List (α × Int)}
    (hwf : WF s) (hcap : memLen s = s.mem_size)
    (h : adapt_train_dataset s ds = some s2) :
    maxVal s2.counter ≤ maxVal s.counter := by
  unfold adapt_train_dataset at h
  split at h
  · exact Option.noConfusion h
  · rename_i s1 staged hpa
    rcases processAll_atCap hwf hcap hpa with ⟨hst, hmax⟩
    subst hst
    rw [if_neg (by simp)] at h
    simp only [Option.some.injEq] at h
    subst h
    exact hmax

theorem reachable_wf {s : GState α} (h : Reachable s) : WF s := by
  induction h with
  | base n =>
    refine ⟨?_, ?_, ?_, ?_, ?_⟩ <;>
      simp [init, memLen, sumCounter]
  | step s1 ds s2 hr hstep ih =>
    exact (adapt_train_dataset_wf ih hstep).1

/-! ### The claims -/

/-- C1: the claim that `adapt_train_dataset` completes for every well-formed
input — "including when memory reaches capacity during the very first step
(when no prior memory exists)" — fails on the code: with capacity 1, a first
step staging one sample and then forcing an eviction dereferences the
still-`None` memory (`self.ext_mem.tensors` with `self.ext_mem is None`),
modelled here as `none`. -/
theorem c1_first_step_eviction_fails :
    adapt_train_dataset (init Nat 1) [(0, 0), (1, 1)] = none := by
  decide

/-- C2: count consistency is violated by the code. After the eviction scan
fails to find the victim label (the most-represented class lives only in the
staging list of the same step), the counter is still updated and the
incoming sample silently dropped: the resulting state has `counts[1] = 1`
but two label-1 memory entries, and `counts[3] = 1` with no label-3 entry. -/
theorem c2_count_desync :
    adapt_train_dataset (init Nat 4) [(100, 0)] =
      some (GState.mk 4 (some [(100, 0)]) [(0, 1)]) ∧
    adapt_train_dataset (GState.mk 4 (some [(100, 0)]) [(0, 1)])
      [(101, 1), (102, 1), (103, 2), (104, 3)] = some desyncState ∧
    counterGet desyncState.counter 1 = 1 ∧ countLabel desyncState 1 = 2 ∧
    counterGet desyncState.counter 3 = 1 ∧ countLabel desyncState 3 = 0 := by
  decide

/-- C3: after every completed `adapt_train_dataset` call, starting from a
fresh component, the number of samples held in memory is at most the
capacity fixed at construction. -/
theorem c3_capacity_bound {α : Type} {s : GState α} (h : Reachable s) :
    memLen s ≤ s.mem_size := by
  rcases reachable_wf h with ⟨-, hcap, -⟩
  simpa using hcap

/-- Witness for C3 at a concrete reachable state. -/
theorem c3_capacity_bound_witness : memLen fullState ≤ fullState.mem_size :=
  c3_capacity_bound
    (Reachable.step (init Nat 4) [(10, 0), (11, 0), (12, 0), (13, 0)]
      fullState (Reachable.base 4) (by decide))

/-- C4: while the resident-plus-staged total is below capacity, processing a
sample completes, leaves the memory object untouched (no eviction), and
appends the sample to the staging list exactly when it is eligible. -/
theorem c4_no_eviction_below_capacity {α : Type} (s : GState α)
    (staged : List (α × Int)) (x : α × Int)
    (hsum : sumCounter s.counter = ((memLen s + staged.length : Nat) : Int))
    (hlt : memLen s + staged.length < s.mem_size) :
    processSample s staged x =
      some (GState.mk s.mem_size s.ext_mem
          (if eligibleB s x.2 then counterAdd s.counter x.2 1 else s.counter),
        if eligibleB s x.2 then staged ++ [x] else staged) := by
  have hg : ¬ sumCounter s.counter ≥ (s.mem_size : Int) := by
    rw [hsum]
    push_neg
    exact_mod_cast hlt
  unfold processSample
  by_cases he : eligibleB s x.2 = true
  · simp only [he, if_true, if_neg hg]
  · have he' : eligibleB s x.2 = false := by
      simpa using he
    simp only [he', Bool.false_eq_true, if_false]

/-- Witness for C4 on a fresh capacity-3 component. -/
theorem c4_no_eviction_below_capacity_witness :
    processSample (init Nat 3) [] ((5 : Nat), (7 : Int)) =
      some (GState.mk 3 none [(7, 1)], [(5, 7)]) := by
  have h := c4_no_eviction_below_capacity (init Nat 3) [] ((5 : Nat), (7 : Int))
    (by decide) (by decide)
  rw [h]
  decide

/-- C5 (amended): once memory is at capacity, a completed step — in
particular one introducing a new class — never increases the maximum class
count (each admission evicts from a currently most-represented class). The
original bound `ceil(capacity / distinct_labels) + 1` can still be exceeded
after such a step (see the counterexample). -/
theorem c5_max_count_nonincreasing {α : Type} {s s2 : GState α}
    {ds : List (α × Int)} (hr : Reachable s) (hfull : memLen s = s.mem_size)
    (h : adapt_train_dataset s ds = some s2) :
    maxVal s2.counter ≤ maxVal s.counter :=
  adapt_train_dataset_atCap (reachable_wf hr) hfull h

/-- Witness for C5 (amended) on the capacity-4 scenario. -/
theorem c5_max_count_nonincreasing_witness :
    maxVal afterState.counter ≤ maxVal fullState.counter :=
  @c5_max_count_nonincreasing Nat fullState afterState [(20, 1)]
    (Reachable.step (init Nat 4) [(10, 0), (11, 0), (12, 0), (13, 0)]
      fullState (Reachable.base 4) (by decide))
    (by decide) (by decide)

/-- C5 counterexample: capacity 10 at capacity with counts `{0: 10}`; a step
introducing class 1 yields counts `{0: 9, 1: 1}`, so class 0 (count 9)
exceeds `ceil(10/2) + 1 = 6` even though the step introduced a new class. -/
theorem c5_ceil_bound_violated :
    adapt_train_dataset (init Nat 10)
        [(0, 0), (1, 0), (2, 0), (3, 0), (4, 0),
         (5, 0), (6, 0), (7, 0), (8, 0), (9, 0)] = some c5MidState ∧
    memLen c5MidState = c5MidState.mem_size ∧
    adapt_train_dataset c5MidState [(99, 1)] = some c5EndState ∧
    c5EndState.counter.length = 2 ∧
    counterGet c5EndState.counter 0 = 9 ∧
    ¬ counterGet c5EndState.counter 0 ≤ ((10 + 2 - 1) / 2 : Int) + 1 := by
  decide

/-- C6: the quota is 1 on an empty counter and
`floor(capacity / distinct labels)` otherwise; a sample is eligible exactly
when its label is absent from the counter or its count is below the quota;
an ineligible sample is discarded with no effect. On the spec's boundary
scenario (capacity 10, counts `{0: 5, 1: 5}`) a label-0 sample meets quota 5
and is discarded. -/
theorem c6_quota_eligibility :
    (∀ (s : GState Nat), patterns_per_class s =
      if s.counter.isEmpty then 1
      else ((s.mem_size / s.counter.length : Nat) : Int)) ∧
    (∀ (s : GState Nat) (tv : Int), eligibleB s tv = true ↔
      (hasKey s.counter tv = false ∨
        counterGet s.counter tv < patterns_per_class s)) ∧
    (∀ (s : GState Nat) (staged : List (Nat × Int)) (x : Nat × Int),
      eligibleB s x.2 = false → processSample s staged x = some (s, staged)) ∧
    patterns_per_class boundaryState = 5 ∧
    eligibleB boundaryState 0 = false ∧
    processSample boundaryState [] (99, 0) = some (boundaryState, []) := by
  refine ⟨fun s => rfl, ?_, ?_, by decide, by decide, by decide⟩
  · intro s tv
    unfold eligibleB
    by_cases hk : hasKey s.counter tv = true
    · rw [if_pos hk, decide_eq_true_eq]
      constructor
      · exact fun hlt => Or.inr hlt
      · rintro (hfalse | hlt)
        · rw [hk] at hfalse
          exact absurd hfalse (by simp)
        · exact hlt
    · have hk' : hasKey s.counter tv = false := by
        simpa using hk
      rw [if_neg hk]
      simp [hk']
  · intro s staged x he
    unfold processSample
    rw [if_neg (by simp [he])]

/-- Witness for C6's discard clause at a concrete input. -/
theorem c6_quota_eligibility_witness :
    processSample boundaryState [(7, 7)] ((42 : Nat), (0 : Int)) =
      some (boundaryState, [(7, 7)]) :=
  c6_quota_eligibility.2.2.1 boundaryState [(7, 7)] (42, 0) (by decide)

/-- C7: the spec's capacity-4 scenario: four label-0 samples fill memory
with counts `{0: 4}`; a following single label-1 sample evicts one label-0
sample in place and yields counts `{0: 3, 1: 1}` with memory still full. -/
theorem c7_capacity4_scenario :
    adapt_train_dataset (init Nat 4) [(10, 0), (11, 0), (12, 0), (13, 0)] =
      some fullState ∧
    fullState.counter = [(0, 4)] ∧ memLen fullState = 4 ∧
    countLabel fullState 0 = 4 ∧
    adapt_train_dataset fullState [(20, 1)] = some afterState ∧
    afterState.counter = [(0, 3), (1, 1)] ∧ memLen afterState = 4 ∧
    countLabel afterState 0 = 3 ∧ countLabel afterState 1 = 1 := by
  decide

/-- C8: processing an empty step leaves the state — memory and counter —
unchanged, in every state of the component. -/
theorem c8_empty_step_noop {α : Type} (s : GState α) :
    adapt_train_dataset s [] = some s :=
  rfl

/-- C9 counterexample: constructing with capacity 0 is not reported as an
error — the source constructor performs no validation and returns an
ordinary state, unlike the spec-modelled checked constructor. -/
theorem c9_zero_capacity_accepted :
    init Nat 0 = GState.mk 0 none [] ∧ initChecked Nat 0 = none := by
  decide

/-- C9 (amended): construction never fails: every capacity value, including
0, is accepted and stored as-is (the source's default argument is 200); a
zero-capacity instance fails at its first processed sample instead of at
construction time. -/
theorem c9_no_construction_validation :
    (∀ (n : Nat), init Nat n = GState.mk n none []) ∧
    (initDefault Nat).mem_size = 200 ∧
    adapt_train_dataset (init Nat 0) [(7, 3)] = none :=
  ⟨fun _ => rfl, rfl, by decide⟩

/-- C10: decrementing a class's count to zero keeps its key (with the dict's
distinct-key count unchanged), so it still enlarges the quota denominator,
and a later sample of that label is judged only by the
`counts[label] < quota` test. Concretely (capacity 2): after label 0 is
evicted down to count 0 the counter has three keys, the quota shrinks to
`floor(2/3) = 0`, and a fresh label-0 sample is ineligible and discarded. -/
theorem c10_zero_count_key_retained :
    (∀ (c : List (Int × Int)) (r : Int), hasKey c r = true →
      hasKey (counterAdd c r (-1)) r = true ∧
        (counterAdd c r (-1)).length = c.length) ∧
    (∀ (s : GState Nat) (tv : Int), hasKey s.counter tv = true →
      eligibleB s tv =
        decide (counterGet s.counter tv < patterns_per_class s)) ∧
    (adapt_train_dataset (init Nat 2) [(50, 0)] =
        some (GState.mk 2 (some [(50, 0)]) [(0, 1)]) ∧
      adapt_train_dataset (GState.mk 2 (some [(50, 0)]) [(0, 1)])
        [(51, 1), (52, 2)] = some zeroCountState) ∧
    counterGet zeroCountState.counter 0 = 0 ∧
    hasKey zeroCountState.counter 0 = true ∧
    zeroCountState.counter.length = 3 ∧
    patterns_per_class zeroCountState = 0 ∧
    eligibleB zeroCountState 0 = false ∧
    adapt_train_dataset zeroCountState [(53, 0)] = some zeroCountState := by
  refine ⟨?_, ?_, by decide, by decide, by decide, by decide, by decide,
    by decide, by decide⟩
  · intro c r h
    constructor
    · exact hasKey_counterAdd_self c r (-1)
    · have hkeys := counterAdd_keys_pos (-1) h
      have hlen := congrArg List.length hkeys
      simpa using hlen
  · intro s tv h
    unfold eligibleB
    rw [if_pos h]

/-- Witness for C10's conditional clauses at concrete inputs. -/
theorem c10_zero_count_key_retained_witness :
    hasKey (counterAdd [((0 : Int), (1 : Int))] 0 (-1)) 0 = true ∧
    eligibleB zeroCountState 0 =
      decide (counterGet zeroCountState.counter 0 <
        patterns_per_class zeroCountState) :=
  ⟨(c10_zero_count_key_retained.1 [(0, 1)] 0 (by decide)).1,
    c10_zero_count_key_retained.2.1 zeroCountState 0 (by decide)⟩

end GDumbPlugin
